import Mathlib

/-!
Verification of the expander-graph lifting subsystem of the repository
(`modules/transforms/liftings/graph2hypergraph/expander_graph_lifting.py`
and `modules/transforms/data_transform.py`).

The Python code is shallowly embedded as follows.

* Nodes of a graph on `n` vertices are `Fin n`; the mutable `edges` set of
  `maybe_regular_expander` is a `Finset (Fin n × Fin n)` of *ordered* pairs,
  exactly as Python stores ordered tuples and checks membership of both
  orientations.
* The numpy random stream is made explicit: `draws : ℕ → List (Fin n)` is the
  sequence of values of `seed.permutation(n - 1).tolist() + [n - 1]`, and every
  function that draws carries the current stream position `k` and returns the
  advanced position, so that consumption of randomness is observable.
* Python exceptions become `Except NetworkXError`; the distinct error messages
  of the source become distinct constructors.
* The call `eigsh`/`abs(lambda2) < 2 ** np.sqrt(d - 1) + epsilon` performed by
  `is_regular_expander` is floating-point spectral code with no shallow
  embedding; its boolean outcome is abstracted as a parameter
  `verdict : Finset (Fin n × Fin n) → Bool` (the comparison's result on the
  candidate), while the comparison's ideal-real form is embedded separately as
  `codeAccepts` for the threshold-level claims.
* The loop counters are `ℕ`.  Python's counter is an `int` that can go
  negative: with `max_tries = 0` the source loops forever instead of raising,
  while the model raises; all theorems about the loops therefore assume
  `1 ≤ max_tries`.
-/

deriving instance DecidableEq for Except

/-- Error values raised by the expander generator; one constructor per
distinct `NetworkXError` message in the source. -/
inductive NetworkXError where
  /-- message "n must be a positive integer" -/
  | nNotPositive : NetworkXError
  /-- message "d must be greater than or equal to 2" -/
  | dLessThanTwo : NetworkXError
  /-- message "d must be even" -/
  | dOdd : NetworkXError
  /-- message "Need n-1>= d to have room for ... independent cycles ..." -/
  | notEnoughRoom : NetworkXError
  /-- message "Too many iterations in maybe_regular_expander" -/
  | innerExhausted : NetworkXError
  /-- message "epsilon must be non negative" -/
  | epsilonNegative : NetworkXError
  /-- message "Too many iterations in random_regular_expander_graph" -/
  | outerExhausted : NetworkXError
deriving DecidableEq, Repr

/-- The four errors raised by argument validation (as opposed to loop
exhaustion). -/
def NetworkXError.isValidation : NetworkXError → Bool
  | .nNotPositive => true
  | .dLessThanTwo => true
  | .dOdd => true
  | .notEnoughRoom => true
  | _ => false

/-- Edge list of a cycle given as a vertex list, in order: the source's
`nx.utils.pairwise(cycle, cyclic=True)`, i.e. consecutive pairs plus the
wrap-around pair. -/
def cyclePairs {n : ℕ} (c : List (Fin n)) : List (Fin n × Fin n) :=
  c.zip (c.rotate 1)

/-- The source's `new_edges` set comprehension: the (ordered) pairs of the
drawn cycle neither of whose orientations is already present in `edges`. -/
def newEdges {n : ℕ} (E : Finset (Fin n × Fin n)) (c : List (Fin n)) :
    Finset (Fin n × Fin n) :=
  (cyclePairs c).toFinset.filter (fun p => p ∉ E ∧ p.swap ∉ E)

/-- Degree of `v` in the undirected graph `nx.Graph` builds from the ordered
pair set `E`: the number of distinct neighbours under either orientation.
(The generated candidates are loop-free, so the self-loop convention of
`networkx` degrees does not matter.) -/
def degreeOf {n : ℕ} (E : Finset (Fin n × Fin n)) (v : Fin n) : ℕ :=
  (Finset.univ.filter (fun u => (u, v) ∈ E ∨ (v, u) ∈ E)).card

/-- Effect of one drawn cycle `c` on the `edges` set: the source's
`if len(new_edges) == n: ... edges.update(new_edges)`. -/
def stepEdges (n : ℕ) (E : Finset (Fin n × Fin n)) (c : List (Fin n)) :
    Finset (Fin n × Fin n) :=
  if (newEdges E c).card = n then E ∪ newEdges E c else E

/-- The inner `while len(edges) != (i + 1) * n` loop of
`maybe_regular_expander`, for one cycle index with `target = (i + 1) * n`.
The fuel argument is the source's `iterations` counter: each pass first
decrements it, draws `draws k`, merges the cycle if all of its `n` edges are
new, and raises once the counter reaches `0` — even when the merge that just
happened reached the target. -/
def innerLoop (n : ℕ) (draws : ℕ → List (Fin n)) (target : ℕ) :
    ℕ → ℕ → Finset (Fin n × Fin n) →
    Except NetworkXError (Finset (Fin n × Fin n) × ℕ)
  | 0, k, E =>
    -- unreachable from `1 ≤ max_tries` (see the header note on counters)
    if E.card = target then .ok (E, k) else .error .innerExhausted
  | m + 1, k, E =>
    if E.card = target then .ok (E, k)
    else if m = 0 then .error .innerExhausted
    else innerLoop n draws target m (k + 1) (stepEdges n E (draws k))

/-- The `for i in range(d // 2)` loop of `maybe_regular_expander`: `done`
cycles have been merged already (so `edges` holds `done * n` edges) and
`remaining` cycles are still to be found. -/
def cyclesLoop (n max_tries : ℕ) (draws : ℕ → List (Fin n)) :
    ℕ → ℕ → ℕ → Finset (Fin n × Fin n) →
    Except NetworkXError (Finset (Fin n × Fin n) × ℕ)
  | _, 0, k, E => .ok (E, k)
  | done, r + 1, k, E =>
    match innerLoop n draws ((done + 1) * n) max_tries k E with
    | .error e => .error e
    | .ok (E', k') => cyclesLoop n max_tries draws (done + 1) r k' E'

/-- Embedding of `maybe_regular_expander(n, d, max_tries, seed)`: validation
in source order, the `n < 2` early return of the empty graph, then the union
of `d / 2` pairwise edge-disjoint random cycles. -/
def maybe_regular_expander (n d max_tries : ℕ) (draws : ℕ → List (Fin n))
    (k : ℕ) : Except NetworkXError (Finset (Fin n × Fin n) × ℕ) :=
  if n < 1 then .error .nNotPositive
  else if ¬ 2 ≤ d then .error .dLessThanTwo
  else if ¬ d % 2 = 0 then .error .dOdd
  else if ¬ d ≤ n - 1 then .error .notEnoughRoom
  else if n < 2 then .ok (∅, k)
  else cyclesLoop n max_tries draws 0 (d / 2) k ∅

/-- Whether all vertices of the graph built from `E` have equal degree:
the source's `nx.is_regular(G)`. -/
def isRegularB {n : ℕ} (E : Finset (Fin n × Fin n)) : Bool :=
  decide (∀ v w : Fin n, degreeOf E v = degreeOf E w)

/-- Embedding of `is_regular_expander(G, epsilon)`.  The negative-`epsilon`
validation and the regularity test are taken from the source; the outcome of
the floating-point comparison `abs(lambda2) < 2 ** np.sqrt(d - 1) + epsilon`
is the abstracted `verdict E` (see the file header and `codeAccepts`). -/
def is_regular_expander {n : ℕ} (verdict : Finset (Fin n × Fin n) → Bool)
    (E : Finset (Fin n × Fin n)) (epsilon : ℚ) : Except NetworkXError Bool :=
  if epsilon < 0 then .error .epsilonNegative
  else if ¬ isRegularB E then .ok false
  else .ok (verdict E)

/-- The retry loop of `random_regular_expander_graph`: while the candidate is
not verified, decrement the counter, regenerate, and raise when the counter
hits `0` — before the regenerated candidate is ever checked. -/
def outerLoop (n d max_tries : ℕ) (epsilon : ℚ)
    (verdict : Finset (Fin n × Fin n) → Bool) (draws : ℕ → List (Fin n)) :
    ℕ → ℕ → Finset (Fin n × Fin n) →
    Except NetworkXError (Finset (Fin n × Fin n) × ℕ)
  | 0, k, E =>
    -- unreachable from `1 ≤ max_tries` (see the header note on counters)
    match is_regular_expander verdict E epsilon with
    | .error e => .error e
    | .ok true => .ok (E, k)
    | .ok false => .error .outerExhausted
  | m + 1, k, E =>
    match is_regular_expander verdict E epsilon with
    | .error e => .error e
    | .ok true => .ok (E, k)
    | .ok false =>
      match maybe_regular_expander n d max_tries draws k with
      | .error e => .error e
      | .ok (E', k') =>
        if m = 0 then .error .outerExhausted
        else outerLoop n d max_tries epsilon verdict draws m k' E'

/-- Embedding of `random_regular_expander_graph(n, d, epsilon, max_tries,
seed)`: one candidate from `maybe_regular_expander`, then the verification
retry loop. -/
def random_regular_expander_graph (n d : ℕ) (epsilon : ℚ) (max_tries : ℕ)
    (verdict : Finset (Fin n × Fin n) → Bool) (draws : ℕ → List (Fin n))
    (k : ℕ) : Except NetworkXError (Finset (Fin n × Fin n) × ℕ) :=
  match maybe_regular_expander n d max_tries draws k with
  | .error e => .error e
  | .ok (E, k') => outerLoop n d max_tries epsilon verdict draws max_tries k' E

/-- Ideal-real form of the acceptance comparison on line 269 of the source,
`bool(abs(lambda2) < 2 ** np.sqrt(d - 1) + epsilon)`: note `**` is
exponentiation, so the threshold is `2 ^ sqrt (d - 1)`. -/
noncomputable def codeAccepts (d : ℕ) (lambda2 epsilon : ℝ) : Prop :=
  |lambda2| < 2 ^ Real.sqrt ((d : ℝ) - 1) + epsilon

/-- The acceptance criterion as the specification (and the docstring of
`is_regular_expander`) states it: threshold `2 * sqrt (d - 1) + epsilon`. -/
noncomputable def specAccepts (d : ℕ) (lambda2 epsilon : ℝ) : Prop :=
  |lambda2| < 2 * Real.sqrt ((d : ℝ) - 1) + epsilon

/-- Input of `ExpanderGraphLifting.lift_topology`: a graph with `n` nodes
(`data.num_nodes`) and a node feature matrix `x` of opaque type `F`. -/
structure DataIn (n : ℕ) (F : Type) where
  x : F
deriving DecidableEq

/-- Output dict of `ExpanderGraphLifting.lift_topology`.  The sparse
incidence matrix of the expander has one column per generated edge, its
column for edge `p` supported on `{p.1, p.2}`; `incidenceCols` records the
edge set, `num_hyperedges` the column count `incidence_matrix.size(1)`. -/
structure LiftOutput (n : ℕ) (F : Type) where
  incidenceCols : Finset (Fin n × Fin n)
  num_hyperedges : ℕ
  x_0 : F
deriving DecidableEq

/-- Support of the incidence-matrix column of edge `p`: the nodes incident to
the hyperedge. -/
def colSupport {n : ℕ} (p : Fin n × Fin n) : Finset (Fin n) :=
  {p.1, p.2}

/-- Error raised by `ExpanderGraphLifting.__init__`: the failing
`assert node_degree % 2 == 0`. -/
inductive InitError where
  | oddNodeDegree : InitError
deriving DecidableEq

/-- Embedding of `ExpanderGraphLifting.__init__(node_degree)`: store the
degree after the evenness assertion. -/
def ExpanderGraphLifting_init (node_degree : ℕ) : Except InitError ℕ :=
  if node_degree % 2 = 0 then .ok node_degree else .error .oddNodeDegree

/-- Embedding of `ExpanderGraphLifting.lift_topology(data)`.  The source
calls `random_regular_expander_graph(data.num_nodes, self.node_degree)` with
its defaults `epsilon = 0`, `max_tries = 100` and `seed = None`; `seed =
None` means the implicit global numpy generator, which appears here as the
explicit stream `draws` with position `k` — the call passes no seed of its
own. -/
def lift_topology {F : Type} (node_degree n : ℕ)
    (verdict : Finset (Fin n × Fin n) → Bool) (data : DataIn n F)
    (draws : ℕ → List (Fin n)) (k : ℕ) :
    Except NetworkXError (LiftOutput n F) :=
  match random_regular_expander_graph n node_degree 0 100 verdict draws k with
  | .error e => .error e
  | .ok (E, _) => .ok { incidenceCols := E, num_hyperedges := E.card, x_0 := data.x }

/-- Keys of the `TRANSFORMS` registry dict of
`modules/transforms/data_transform.py`, in source order. -/
def TRANSFORMS : List String :=
  ["HypergraphKHopLifting",
   "HypergraphKNearestNeighborsLifting",
   "SimplicialNeighborhoodLifting",
   "SimplicialCliqueLifting",
   "CellCyclesLifting",
   "SumLifting",
   "Identity",
   "InfereKNNConnectivity",
   "InfereRadiusConnectivity",
   "NodeDegrees",
   "OneHotDegreeFeatures",
   "EqualGausFeatures",
   "NodeFeaturesToFloat",
   "CalculateSimplicialCurvature",
   "KeepOnlyConnectedComponent"]

/-- Error raised by `TRANSFORMS[transform_name]` when the key is absent. -/
inductive LookupError where
  | keyError : String → LookupError
deriving DecidableEq

/-- Embedding of `DataTransform.__init__(transform_name)`: `None` yields no
transform, a present key yields its class (modelled by the key), an absent
key raises `KeyError`. -/
def DataTransform_init (transform_name : Option String) :
    Except LookupError (Option String) :=
  match transform_name with
  | none => .ok none
  | some s => if s ∈ TRANSFORMS then .ok (some s) else .error (.keyError s)

/-- Pure evolution of the `edges` set under the first `j` draws starting at
stream position `k` (used to characterise when the inner loop raises). -/
def evolve (n : ℕ) (draws : ℕ → List (Fin n)) :
    ℕ → ℕ → Finset (Fin n × Fin n) → Finset (Fin n × Fin n)
  | 0, _, E => E
  | j + 1, k, E => evolve n draws j (k + 1) (stepEdges n E (draws k))

/-- C1: the acceptance threshold of `is_regular_expander` is not
`2 * sqrt (d - 1) + epsilon`: at degree `d = 18`, second eigenvalue
magnitude `9` and tolerance `epsilon = 0` (realised e.g. by the complete
tripartite graph on three parts of size 9), the code's comparison
`|lambda2| < 2 ** sqrt (d - 1) + epsilon` accepts while the documented
threshold `2 * sqrt (d - 1) + epsilon` rejects. -/
theorem c1_threshold_is_exponential_not_linear :
    codeAccepts 18 9 0 ∧ ¬ specAccepts 18 9 0 := by
  have h17 : ((18 : ℕ) : ℝ) - 1 = 17 := by norm_num
  have hsq : Real.sqrt 17 ^ 2 = 17 := Real.sq_sqrt (by norm_num)
  have hnn : 0 ≤ Real.sqrt 17 := Real.sqrt_nonneg 17
  constructor
  · show |(9 : ℝ)| < 2 ^ Real.sqrt (((18 : ℕ) : ℝ) - 1) + 0
    rw [h17]
    have h4 : (4 : ℝ) ≤ Real.sqrt 17 := by
      nlinarith [hsq, hnn]
    have hle : (2 : ℝ) ^ (4 : ℝ) ≤ 2 ^ Real.sqrt 17 :=
      (Real.rpow_le_rpow_left_iff (by norm_num)).mpr h4
    have h16 : (2 : ℝ) ^ (4 : ℝ) = 16 := by
      rw [show (4 : ℝ) = ((4 : ℕ) : ℝ) by norm_num, Real.rpow_natCast]
      norm_num
    rw [abs_of_nonneg (by norm_num : (0:ℝ) ≤ 9)]
    linarith
  · show ¬ |(9 : ℝ)| < 2 * Real.sqrt (((18 : ℕ) : ℝ) - 1) + 0
    rw [h17, abs_of_nonneg (by norm_num : (0:ℝ) ≤ 9), not_lt]
    nlinarith [hsq, hnn]

/-- C4 (counterexample): with `n = 3`, `d = 2`, `max_tries = 1` and a global
stream whose first draw is the full cycle `[0, 1, 2]`, the required
independent cycle is found on the very first iteration — the draw's `n` new
edges are all accepted, as the second conjunct records — yet
`maybe_regular_expander` still raises the construction-exhausted error,
because the counter reaches zero on that same (first = `max_tries`-th)
iteration. -/
theorem c4_raises_despite_cycle_found :
    maybe_regular_expander 3 2 1 (fun _ => [0, 1, 2]) 0 =
      .error .innerExhausted ∧
    (newEdges (∅ : Finset (Fin 3 × Fin 3)) [0, 1, 2]).card = 3 := by
  constructor
  · rfl
  · decide

/-- C4 (amended): the inner independent-cycle search raises the
construction-exhausted error if and only if the accumulated edge set fails
to reach the target size within the first `max_tries - 1` draws; in
particular a cycle found on the final, `max_tries`-th draw does not prevent
the error. -/
theorem c4_inner_error_iff (n : ℕ) (draws : ℕ → List (Fin n))
    (target m k : ℕ) (E : Finset (Fin n × Fin n)) (hm : 1 ≤ m) :
    innerLoop n draws target m k E = .error .innerExhausted ↔
      ∀ j < m, (evolve n draws j k E).card ≠ target := by
  induction m generalizing k E with
  | zero => omega
  | succ m ih =>
    by_cases hE : E.card = target
    · simp only [innerLoop, hE, if_true]
      constructor
      · intro h; exact absurd h (by simp)
      · intro h; exact absurd hE (by simpa using h 0 (by omega))
    · rcases Nat.eq_zero_or_pos m with hm0 | hm1
      · subst hm0
        simp only [innerLoop, hE, if_false, if_true]
        constructor
        · intro _ j hj
          interval_cases j
          simpa [evolve] using hE
        · intro _; trivial
      · have hm0 : m ≠ 0 := by omega
        simp only [innerLoop, hE, if_false, hm0, ite_false]
        rw [ih (k + 1) (stepEdges n E (draws k)) hm1]
        constructor
        · intro h j hj
          rcases Nat.eq_zero_or_pos j with hj0 | hjpos
          · subst hj0; simpa [evolve] using hE
          · obtain ⟨j', rfl⟩ := Nat.exists_eq_succ_of_ne_zero (by omega : j ≠ 0)
            exact h j' (by omega)
        · intro h j hj
          exact h (j + 1) (by omega)

/-- C4 (witness): concrete instance of `c4_inner_error_iff` — with one
allowed iteration and an empty starting edge set the inner loop raises. -/
theorem c4_inner_error_iff_witness :
    innerLoop 3 (fun _ => [0, 1, 2]) 3 1 0 ∅ = .error .innerExhausted :=
  (c4_inner_error_iff 3 (fun _ => [0, 1, 2]) 3 1 0 ∅ (le_refl 1)).mpr
    (by decide)

/-- C5: whenever `d` is odd, `d < 2`, `n - 1 < d` or `n < 1`, the expander
generator rejects the arguments with a validation error, and the result is
the same error for every random stream and stream position — no cycle
construction or random drawing takes place. -/
theorem c5_invalid_arguments_rejected_immediately (n d max_tries : ℕ)
    (h : d % 2 = 1 ∨ d < 2 ∨ n - 1 < d ∨ n < 1) :
    ∃ e : NetworkXError, e.isValidation = true ∧
      ∀ (draws : ℕ → List (Fin n)) (k : ℕ),
        maybe_regular_expander n d max_tries draws k = .error e := by
  by_cases h1 : n < 1
  · exact ⟨.nNotPositive, rfl, fun draws k => by
      simp [maybe_regular_expander, h1]⟩
  · by_cases h2 : 2 ≤ d
    · by_cases h3 : d % 2 = 0
      · have h4 : ¬ d ≤ n - 1 := by omega
        exact ⟨.notEnoughRoom, rfl, fun draws k => by
          simp [maybe_regular_expander, h1, h2, h3, h4]⟩
      · exact ⟨.dOdd, rfl, fun draws k => by
          simp [maybe_regular_expander, h1, h2, h3]⟩
    · exact ⟨.dLessThanTwo, rfl, fun draws k => by
        simp [maybe_regular_expander, h1, h2]⟩

/-- C5 (witness): odd degree `d = 3` on five nodes is rejected. -/
theorem c5_witness :
    ∃ e : NetworkXError, e.isValidation = true ∧
      ∀ (draws : ℕ → List (Fin 5)) (k : ℕ),
        maybe_regular_expander 5 3 100 draws k = .error e :=
  c5_invalid_arguments_rejected_immediately 5 3 100 (Or.inl rfl)

/-- C6 (counterexample): with `n = 1` and the smallest otherwise-valid even
degree `d = 2`, the generator raises the not-enough-room validation error
instead of returning the trivial empty graph on one node. -/
theorem c6_n_eq_one_raises :
    maybe_regular_expander 1 2 100 (fun _ => []) 0 =
      .error .notEnoughRoom := by
  rfl

/-- C6 (amended): for every even `d ≥ 2` (the otherwise-valid degrees), a
call with `n = 1` raises the not-enough-room validation error, because
validation demands `d ≤ n - 1 = 0`; the early return of the trivial empty
graph for `n < 2` is unreachable once validation has passed. -/
theorem c6_n_eq_one_always_rejected (d max_tries : ℕ)
    (draws : ℕ → List (Fin 1)) (k : ℕ) (hd2 : 2 ≤ d) (hde : d % 2 = 0) :
    maybe_regular_expander 1 d max_tries draws k = .error .notEnoughRoom := by
  have h1 : ¬ (1 < 1) := by omega
  have h4 : ¬ d ≤ 1 - 1 := by omega
  simp only [maybe_regular_expander, h1, if_false, hd2, not_true, hde,
    not_false_iff, h4, if_true]

/-- C6 (witness): concrete instance of `c6_n_eq_one_always_rejected` at
`d = 2`. -/
theorem c6_witness :
    maybe_regular_expander 1 2 7 (fun _ => []) 3 = .error .notEnoughRoom :=
  c6_n_eq_one_always_rejected 2 7 (fun _ => []) 3 (by omega) rfl

/-- C9: constructing `ExpanderGraphLifting` with an odd `node_degree` fails
the evenness assertion in `__init__`, before any graph is generated. -/
theorem c9_odd_node_degree_rejected (node_degree : ℕ)
    (h : node_degree % 2 = 1) :
    ExpanderGraphLifting_init node_degree = .error .oddNodeDegree := by
  simp only [ExpanderGraphLifting_init, ite_eq_right_iff]
  intro h0
  omega

/-- C9 (witness): `node_degree = 3` is rejected at construction time. -/
theorem c9_witness :
    ExpanderGraphLifting_init 3 = .error .oddNodeDegree :=
  c9_odd_node_degree_rejected 3 rfl

/-- C10: the `TRANSFORMS` registry has no key `"ExpanderGraphLifting"`, so
constructing `DataTransform` with that name — or with any name absent from
the registry — raises `KeyError` during construction, leaving the expander
lifting unreachable through registry dispatch. -/
theorem c10_expander_lifting_unregistered :
    "ExpanderGraphLifting" ∉ TRANSFORMS ∧
    DataTransform_init (some "ExpanderGraphLifting") =
      .error (.keyError "ExpanderGraphLifting") ∧
    ∀ s : String, s ∉ TRANSFORMS →
      DataTransform_init (some s) = .error (.keyError s) := by
  have hmem : "ExpanderGraphLifting" ∉ TRANSFORMS := by decide
  exact ⟨hmem, by simp [DataTransform_init, hmem],
    fun s hs => by simp [DataTransform_init, hs]⟩

/-- C10 (witness): a concrete absent key raises `KeyError`. -/
theorem c10_witness :
    DataTransform_init (some "SomeAbsentLifting") =
      .error (.keyError "SomeAbsentLifting") :=
  c10_expander_lifting_unregistered.2.2 "SomeAbsentLifting" (by decide)

/-- C7 (counterexample): with `epsilon = -1`, `n = 3`, `d = 2`,
`max_tries = 2` and first draw `[0, 1, 2]`, the candidate graph is fully
constructed — the first conjunct shows the construction succeeding and
advancing the random stream from position `0` to position `1` — before
`random_regular_expander_graph` raises the negative-`epsilon` validation
error at the first spectral check.  The error is therefore not raised
before randomized work starts. -/
theorem c7_construction_precedes_epsilon_check :
    maybe_regular_expander 3 2 2 (fun _ => [0, 1, 2]) 0 =
      .ok ({(0, 1), (1, 2), (2, 0)}, 1) ∧
    random_regular_expander_graph 3 2 (-1) 2 (fun _ => true)
      (fun _ => [0, 1, 2]) 0 = .error .epsilonNegative := by
  constructor
  · decide
  · decide

/-- C7 (amended): for negative `epsilon` the generator does raise the
epsilon validation error, but only at the first spectral check, i.e. after
the first candidate graph has been constructed by random drawing; whenever
that initial construction succeeds, the overall result is the
negative-`epsilon` error. -/
theorem c7_negative_epsilon_raised_after_first_candidate
    (n d max_tries : ℕ) (epsilon : ℚ)
    (verdict : Finset (Fin n × Fin n) → Bool) (draws : ℕ → List (Fin n))
    (k k' : ℕ) (E : Finset (Fin n × Fin n)) (heps : epsilon < 0)
    (hok : maybe_regular_expander n d max_tries draws k = .ok (E, k')) :
    random_regular_expander_graph n d epsilon max_tries verdict draws k =
      .error .epsilonNegative := by
  unfold random_regular_expander_graph
  rw [hok]
  cases max_tries with
  | zero => simp [outerLoop, is_regular_expander, if_pos heps]
  | succ m => simp [outerLoop, is_regular_expander, if_pos heps]

/-- C7 (witness): concrete instance of
`c7_negative_epsilon_raised_after_first_candidate`. -/
theorem c7_witness :
    random_regular_expander_graph 3 2 (-1) 5 (fun _ => true)
      (fun _ => [0, 1, 2]) 0 = .error .epsilonNegative :=
  c7_negative_epsilon_raised_after_first_candidate 3 2 5 (-1)
    (fun _ => true) (fun _ => [0, 1, 2]) 0 1 {(0, 1), (1, 2), (2, 0)}
    (by norm_num) (by decide)

/-- C3: `lift_topology` passes no seed, so its randomness is the implicit
global numpy stream; two runs on the same input data (5 nodes, features
passed through, `node_degree = 2`) with different global stream states
return different topology descriptors.  Both streams used here are genuine
`permutation(n - 1) + [n - 1]` draws, and both resulting candidates are
5-cycles, which the spectral check of the source accepts (their second
eigenvalue magnitude is the golden ratio `1.618... < 2`), so the constant
`true` verdict reproduces the floating-point comparison's outcome on every
candidate this run can reach. -/
theorem c3_output_depends_on_global_stream :
    lift_topology 2 5 (fun _ => true) ⟨()⟩ (fun _ => [0, 1, 2, 3, 4]) 0 ≠
    lift_topology 2 5 (fun _ => true) ⟨()⟩ (fun _ => [0, 2, 1, 3, 4]) 0 := by
  decide

/-- A random draw of the source, `seed.permutation(n - 1).tolist() + [n - 1]`,
is a duplicate-free listing of all `n` nodes; the theorems about generated
graphs assume every stream entry has this shape. -/
def IsPermDraw (n : ℕ) (c : List (Fin n)) : Prop :=
  c.Nodup ∧ c.length = n

/-- Modular index access into a drawn cycle. -/
def cycleGet {n : ℕ} [NeZero n] (c : List (Fin n)) (hl : c.length = n)
    (j : ZMod n) : Fin n :=
  c.get ⟨j.val, hl.symm ▸ ZMod.val_lt j⟩

lemma get_index_congr {α : Type} (c : List α) {i i' : ℕ} (h : i = i')
    (hi : i < c.length) (hi' : i' < c.length) :
    c.get ⟨i, hi⟩ = c.get ⟨i', hi'⟩ := by
  subst h; rfl

lemma cyclePairs_length {n : ℕ} (c : List (Fin n)) :
    (cyclePairs c).length = c.length := by
  simp [cyclePairs]

/-- The pairs of a full-length cycle are exactly the pairs of modularly
consecutive entries. -/
lemma mem_cyclePairs_iff {n : ℕ} [NeZero n] (hn : 1 < n) {c : List (Fin n)}
    (hl : c.length = n) {p : Fin n × Fin n} :
    p ∈ cyclePairs c ↔
      ∃ j : ZMod n, p = (cycleGet c hl j, cycleGet c hl (j + 1)) := by
  haveI : Fact (1 < n) := ⟨hn⟩
  have hlen : (cyclePairs c).length = n := by rw [cyclePairs_length, hl]
  constructor
  · intro hp
    obtain ⟨i, hi⟩ := List.mem_iff_get.mp hp
    have hilt : (i : ℕ) < n := by have := i.isLt; omega
    refine ⟨((i : ℕ) : ZMod n), ?_⟩
    have hval : (((i : ℕ) : ZMod n)).val = (i : ℕ) := ZMod.val_natCast_of_lt hilt
    have hval1 : (((i : ℕ) : ZMod n) + 1).val = ((i : ℕ) + 1) % n := by
      rw [ZMod.val_add, ZMod.val_one, hval]
    rw [← hi]
    show (cyclePairs c).get i = _
    unfold cyclePairs at i hi ⊢
    rw [List.get_zip]
    refine Prod.ext ?_ ?_
    · exact get_index_congr c hval.symm _ _
    · rw [List.get_rotate]
      exact get_index_congr c (by rw [hval1, hl]) _ _
  · rintro ⟨j, rfl⟩
    have hjlt : j.val < (cyclePairs c).length := by rw [hlen]; exact ZMod.val_lt j
    refine List.mem_iff_get.mpr ⟨⟨j.val, hjlt⟩, ?_⟩
    have hval1 : (j + 1).val = (j.val + 1) % n := by
      rw [ZMod.val_add, ZMod.val_one]
    show (cyclePairs c).get _ = _
    unfold cyclePairs
    rw [List.get_zip]
    refine Prod.ext ?_ ?_
    · exact get_index_congr c rfl _ _
    · rw [List.get_rotate]
      exact get_index_congr c (by rw [hval1, hl]) _ _

lemma cycleGet_injective {n : ℕ} [NeZero n] {c : List (Fin n)}
    (hc : c.Nodup) (hl : c.length = n) :
    Function.Injective (cycleGet c hl) := by
  intro a b hab
  have h := List.nodup_iff_injective_get.mp hc hab
  exact ZMod.val_injective n (congrArg Fin.val h)

lemma cycleGet_surjective {n : ℕ} [NeZero n] {c : List (Fin n)}
    (hc : c.Nodup) (hl : c.length = n) :
    Function.Surjective (cycleGet c hl) := by
  have hbij : Function.Bijective (cycleGet c hl) :=
    (Fintype.bijective_iff_injective_and_card _).mpr
      ⟨cycleGet_injective hc hl, by simp [ZMod.card]⟩
  exact hbij.2

lemma cyclePairs_nodup {n : ℕ} {c : List (Fin n)} (hc : c.Nodup) :
    (cyclePairs c).Nodup := by
  have hmap : (cyclePairs c).map Prod.fst = c :=
    List.map_fst_zip _ _ (by simp)
  exact List.Nodup.of_map Prod.fst (by rw [hmap]; exact hc)

lemma cyclePairs_toFinset_card {n : ℕ} {c : List (Fin n)} (hc : c.Nodup)
    (hl : c.length = n) : (cyclePairs c).toFinset.card = n := by
  rw [List.toFinset_card_of_nodup (cyclePairs_nodup hc), cyclePairs_length, hl]

lemma two_ne_zero_in_zmod (n : ℕ) [NeZero n] (hn : 3 ≤ n) :
    (2 : ZMod n) ≠ 0 := by
  intro h
  have h2 : (((2 : ℕ) : ZMod n)).val = 2 := ZMod.val_natCast_of_lt (by omega)
  rw [Nat.cast_ofNat, h, ZMod.val_zero] at h2
  exact two_ne_zero h2.symm

lemma one_ne_zero_in_zmod (n : ℕ) [NeZero n] (hn : 3 ≤ n) :
    (1 : ZMod n) ≠ 0 := by
  haveI : Fact (1 < n) := ⟨by omega⟩
  exact one_ne_zero

lemma cyclePairs_no_self_loops {n : ℕ} [NeZero n] (hn : 3 ≤ n)
    {c : List (Fin n)} (hc : c.Nodup) (hl : c.length = n) (v : Fin n) :
    (v, v) ∉ (cyclePairs c).toFinset := by
  rw [List.mem_toFinset, mem_cyclePairs_iff (by omega) hl]
  rintro ⟨j, hj⟩
  rw [Prod.mk.injEq] at hj
  have hji : j = j + 1 := cycleGet_injective hc hl (hj.1.symm.trans hj.2)
  exact one_ne_zero_in_zmod n hn (self_eq_add_right.mp hji)

lemma cyclePairs_no_swap {n : ℕ} [NeZero n] (hn : 3 ≤ n)
    {c : List (Fin n)} (hc : c.Nodup) (hl : c.length = n)
    {p : Fin n × Fin n} (hp : p ∈ (cyclePairs c).toFinset) :
    p.swap ∉ (cyclePairs c).toFinset := by
  rw [List.mem_toFinset, mem_cyclePairs_iff (by omega) hl] at hp ⊢
  obtain ⟨j, rfl⟩ := hp
  rintro ⟨l, hl2⟩
  rw [Prod.swap_prod_mk, Prod.mk.injEq] at hl2
  have h1 : j + 1 = l := cycleGet_injective hc hl hl2.1
  have h2 : j = l + 1 := cycleGet_injective hc hl hl2.2
  rw [← h1, add_assoc, one_add_one_eq_two] at h2
  exact two_ne_zero_in_zmod n hn (self_eq_add_right.mp h2)

lemma cycle_neighbor_filter {n : ℕ} [NeZero n] (hn : 3 ≤ n)
    {c : List (Fin n)} (hc : c.Nodup) (hl : c.length = n) (i : ZMod n) :
    (Finset.univ.filter (fun u =>
        (u, cycleGet c hl i) ∈ (cyclePairs c).toFinset ∨
        (cycleGet c hl i, u) ∈ (cyclePairs c).toFinset)) =
      {cycleGet c hl (i - 1), cycleGet c hl (i + 1)} := by
  ext u
  simp only [Finset.mem_filter, Finset.mem_univ, true_and, List.mem_toFinset,
    mem_cyclePairs_iff (show 1 < n by omega) hl, Finset.mem_insert,
    Finset.mem_singleton, Prod.mk.injEq]
  constructor
  · rintro (⟨j, hj1, hj2⟩ | ⟨j, hj1, hj2⟩)
    · left
      have : i = j + 1 := cycleGet_injective hc hl hj2
      have hji : j = i - 1 := by rw [this]; ring
      rw [hj1, hji]
    · right
      have : i = j := cycleGet_injective hc hl hj1
      rw [hj2, this]
  · rintro (rfl | rfl)
    · exact Or.inl ⟨i - 1, rfl, by rw [sub_add_cancel]⟩
    · exact Or.inr ⟨i, rfl, rfl⟩

lemma cycle_neighbor_filter_card {n : ℕ} [NeZero n] (hn : 3 ≤ n)
    {c : List (Fin n)} (hc : c.Nodup) (hl : c.length = n) (i : ZMod n) :
    (Finset.univ.filter (fun u =>
        (u, cycleGet c hl i) ∈ (cyclePairs c).toFinset ∨
        (cycleGet c hl i, u) ∈ (cyclePairs c).toFinset)).card = 2 := by
  rw [cycle_neighbor_filter hn hc hl i]
  apply Finset.card_pair
  intro h
  have h2 : i - 1 = i + 1 := cycleGet_injective hc hl h
  have h3 : i = i + 2 := by
    have := congrArg (· + 1) h2
    simpa [sub_add_cancel, add_assoc, one_add_one_eq_two] using this
  exact two_ne_zero_in_zmod n hn (self_eq_add_right.mp h3)

/-- Invariant of the `edges` set after `i` cycles have been merged: `i * n`
edges, no self-loop, never both orientations of a pair, every vertex with
exactly `2 * i` distinct neighbours. -/
def GoodState (n i : ℕ) (E : Finset (Fin n × Fin n)) : Prop :=
  E.card = i * n ∧ (∀ v, (v, v) ∉ E) ∧ (∀ p ∈ E, p.swap ∉ E) ∧
    ∀ v, degreeOf E v = 2 * i

lemma goodState_empty (n : ℕ) : GoodState n 0 (∅ : Finset (Fin n × Fin n)) := by
  refine ⟨by simp, by simp, by simp, fun v => ?_⟩
  simp [degreeOf]

/-- When the source accepts a drawn cycle (`len(new_edges) == n`), the new
edge set is the full pair set of the cycle and is disjoint, in both
orientations, from the edges accumulated so far. -/
lemma newEdges_accepted {n : ℕ} {E : Finset (Fin n × Fin n)}
    {c : List (Fin n)} (hc : c.Nodup) (hl : c.length = n)
    (hacc : (newEdges E c).card = n) :
    newEdges E c = (cyclePairs c).toFinset ∧
      ∀ p ∈ (cyclePairs c).toFinset, p ∉ E ∧ p.swap ∉ E := by
  have hsub : newEdges E c ⊆ (cyclePairs c).toFinset :=
    Finset.filter_subset _ _
  have heq : newEdges E c = (cyclePairs c).toFinset :=
    Finset.eq_of_subset_of_card_le hsub
      (by rw [cyclePairs_toFinset_card hc hl, hacc])
  refine ⟨heq, fun p hp => ?_⟩
  have hp2 : p ∈ newEdges E c := by rw [heq]; exact hp
  exact (Finset.mem_filter.mp hp2).2

/-- Merging an accepted cycle preserves the invariant, advancing the merged
count by one. -/
lemma goodState_union {n : ℕ} [NeZero n] (hn : 3 ≤ n) {c : List (Fin n)}
    (hc : c.Nodup) (hl : c.length = n) {E : Finset (Fin n × Fin n)} {i : ℕ}
    (hE : GoodState n i E) (hacc : (newEdges E c).card = n) :
    GoodState n (i + 1) (E ∪ newEdges E c) := by
  obtain ⟨hcard, hloop, hswap, hdeg⟩ := hE
  obtain ⟨heq, hdisj⟩ := newEdges_accepted hc hl hacc
  rw [heq]
  set N := (cyclePairs c).toFinset with hN
  have hNE : ∀ p ∈ N, p ∉ E := fun p hp => (hdisj p hp).1
  have hNEswap : ∀ p ∈ N, p.swap ∉ E := fun p hp => (hdisj p hp).2
  have hNcard : N.card = n := cyclePairs_toFinset_card hc hl
  refine ⟨?_, ?_, ?_, ?_⟩
  · rw [Finset.card_union_of_disjoint
      (Finset.disjoint_right.mpr fun p hp => hNE p hp), hcard, hNcard]
    ring
  · intro v hv
    rcases Finset.mem_union.mp hv with h | h
    · exact hloop v h
    · exact cyclePairs_no_self_loops hn hc hl v h
  · intro p hp hps
    rcases Finset.mem_union.mp hp with h | h
    · rcases Finset.mem_union.mp hps with h' | h'
      · exact hswap p h h'
      · exact hNEswap p.swap h' (by simpa using h)
    · rcases Finset.mem_union.mp hps with h' | h'
      · exact hNEswap p h h'
      · exact cyclePairs_no_swap hn hc hl h h'
  · intro v
    obtain ⟨iv, rfl⟩ := cycleGet_surjective hc hl v
    unfold degreeOf
    have hsplit :
        (Finset.univ.filter (fun u =>
            (u, cycleGet c hl iv) ∈ E ∪ N ∨ (cycleGet c hl iv, u) ∈ E ∪ N)) =
          (Finset.univ.filter (fun u =>
            (u, cycleGet c hl iv) ∈ E ∨ (cycleGet c hl iv, u) ∈ E)) ∪
          (Finset.univ.filter (fun u =>
            (u, cycleGet c hl iv) ∈ N ∨ (cycleGet c hl iv, u) ∈ N)) := by
      ext u
      simp only [Finset.mem_filter, Finset.mem_univ, true_and,
        Finset.mem_union]
      tauto
    have hdisj2 : Disjoint
        (Finset.univ.filter (fun u =>
          (u, cycleGet c hl iv) ∈ E ∨ (cycleGet c hl iv, u) ∈ E))
        (Finset.univ.filter (fun u =>
          (u, cycleGet c hl iv) ∈ N ∨ (cycleGet c hl iv, u) ∈ N)) := by
      rw [Finset.disjoint_right]
      intro u huN huE
      simp only [Finset.mem_filter, Finset.mem_univ, true_and] at huN huE
      rcases huN with h | h
      · exact absurd huE (by
          push_neg
          exact ⟨hNE _ h, fun hh => hNEswap _ h (by simpa using hh)⟩)
      · exact absurd huE (by
          push_neg
          exact ⟨fun hh => hNEswap _ h (by simpa using hh), hNE _ h⟩)
    rw [hsplit, Finset.card_union_of_disjoint hdisj2]
    have hd1 : (Finset.univ.filter (fun u =>
        (u, cycleGet c hl iv) ∈ E ∨ (cycleGet c hl iv, u) ∈ E)).card = 2 * i :=
      hdeg (cycleGet c hl iv)
    rw [hd1, cycle_neighbor_filter_card hn hc hl iv]
    ring

/-- A state that already holds `target` edges is returned unchanged by the
inner loop. -/
lemma innerLoop_at_target {n : ℕ} (draws : ℕ → List (Fin n))
    (target m k : ℕ) (E : Finset (Fin n × Fin n)) (h : E.card = target) :
    innerLoop n draws target m k E = .ok (E, k) := by
  cases m <;> simp [innerLoop, h]

/-- Any success of the inner loop starting from an `i`-cycle state is an
`(i + 1)`-cycle state. -/
lemma innerLoop_goodState {n : ℕ} [NeZero n] (hn : 3 ≤ n)
    (draws : ℕ → List (Fin n)) (hdraws : ∀ j, IsPermDraw n (draws j))
    (i : ℕ) :
    ∀ (m k : ℕ) (E E' : Finset (Fin n × Fin n)) (k' : ℕ),
      GoodState n i E →
      innerLoop n draws ((i + 1) * n) m k E = .ok (E', k') →
      GoodState n (i + 1) E' := by
  intro m
  induction m with
  | zero =>
    intro k E E' k' hG h
    by_cases hc : E.card = (i + 1) * n
    · exfalso
      rw [hG.1] at hc
      have : (i + 1) * n = i * n + n := by ring
      omega
    · simp [innerLoop, hc] at h
  | succ m ih =>
    intro k E E' k' hG h
    by_cases hc : E.card = (i + 1) * n
    · exfalso
      rw [hG.1] at hc
      have : (i + 1) * n = i * n + n := by ring
      omega
    · rw [show innerLoop n draws ((i + 1) * n) (m + 1) k E =
          (if E.card = (i + 1) * n then .ok (E, k)
           else if m = 0 then .error .innerExhausted
           else innerLoop n draws ((i + 1) * n) m (k + 1)
             (stepEdges n E (draws k))) from rfl, if_neg hc] at h
      by_cases hm : m = 0
      · rw [if_pos hm] at h
        cases h
      · rw [if_neg hm] at h
        by_cases hacc : (newEdges E (draws k)).card = n
        · have hG' : GoodState n (i + 1) (E ∪ newEdges E (draws k)) :=
            goodState_union hn (hdraws k).1 (hdraws k).2 hG hacc
          rw [stepEdges, if_pos hacc,
            innerLoop_at_target draws _ m (k + 1) _ hG'.1] at h
          cases h
          exact hG'
        · rw [stepEdges, if_neg hacc] at h
          exact ih (k + 1) E E' k' hG h

/-- Any success of the cycles loop advances the invariant by the number of
remaining cycles. -/
lemma cyclesLoop_goodState {n : ℕ} [NeZero n] (hn : 3 ≤ n) (max_tries : ℕ)
    (draws : ℕ → List (Fin n)) (hdraws : ∀ j, IsPermDraw n (draws j)) :
    ∀ (r done k : ℕ) (E E' : Finset (Fin n × Fin n)) (k' : ℕ),
      GoodState n done E →
      cyclesLoop n max_tries draws done r k E = .ok (E', k') →
      GoodState n (done + r) E' := by
  intro r
  induction r with
  | zero =>
    intro done k E E' k' hG h
    simp only [cyclesLoop, Except.ok.injEq, Prod.mk.injEq] at h
    obtain ⟨rfl, rfl⟩ := h
    exact hG
  | succ r ih =>
    intro done k E E' k' hG h
    rw [show cyclesLoop n max_tries draws done (r + 1) k E =
        (match innerLoop n draws ((done + 1) * n) max_tries k E with
         | .error e => .error e
         | .ok (E1, k1) =>
             cyclesLoop n max_tries draws (done + 1) r k1 E1) from rfl] at h
    cases heq : innerLoop n draws ((done + 1) * n) max_tries k E with
    | error e => rw [heq] at h; cases h
    | ok Ek =>
      obtain ⟨E1, k1⟩ := Ek
      rw [heq] at h
      have hG1 : GoodState n (done + 1) E1 :=
        innerLoop_goodState hn draws hdraws done max_tries k E E1 k1 hG heq
      have := ih (done + 1) k1 E1 E' k' hG1 h
      have harith : done + 1 + r = done + (r + 1) := by omega
      rwa [harith] at this

/-- Validation facts and the invariant for every successful
`maybe_regular_expander` run with permutation draws. -/
lemma maybe_goodState {n d max_tries : ℕ} {draws : ℕ → List (Fin n)}
    {k : ℕ} {E : Finset (Fin n × Fin n)} {k' : ℕ}
    (hdraws : ∀ j, IsPermDraw n (draws j))
    (h : maybe_regular_expander n d max_tries draws k = .ok (E, k')) :
    2 ≤ d ∧ d % 2 = 0 ∧ 3 ≤ n ∧ GoodState n (d / 2) E := by
  unfold maybe_regular_expander at h
  by_cases h1 : n < 1
  · rw [if_pos h1] at h; cases h
  rw [if_neg h1] at h
  by_cases h2 : ¬ 2 ≤ d
  · rw [if_pos h2] at h; cases h
  rw [if_neg h2] at h
  by_cases h3 : ¬ d % 2 = 0
  · rw [if_pos h3] at h; cases h
  rw [if_neg h3] at h
  by_cases h4 : ¬ d ≤ n - 1
  · rw [if_pos h4] at h; cases h
  rw [if_neg h4] at h
  push_neg at h2 h3 h4
  have hn3 : 3 ≤ n := by omega
  have h5 : ¬ n < 2 := by omega
  rw [if_neg h5] at h
  haveI : NeZero n := ⟨by omega⟩
  refine ⟨h2, h3, hn3, ?_⟩
  have := cyclesLoop_goodState hn3 max_tries draws hdraws (d / 2) 0 k ∅ E k'
    (goodState_empty n) h
  simpa using this

/-- Every success of the verification retry loop returns either the initial
candidate or a regenerated one, hence preserves any property that all
`maybe_regular_expander` successes have. -/
lemma outerLoop_preserves {n d max_tries : ℕ} {epsilon : ℚ}
    {verdict : Finset (Fin n × Fin n) → Bool} {draws : ℕ → List (Fin n)}
    (P : Finset (Fin n × Fin n) → Prop)
    (hmaybe : ∀ (k : ℕ) (E : Finset (Fin n × Fin n)) (k' : ℕ),
      maybe_regular_expander n d max_tries draws k = .ok (E, k') → P E) :
    ∀ (m k : ℕ) (E E' : Finset (Fin n × Fin n)) (k' : ℕ), P E →
      outerLoop n d max_tries epsilon verdict draws m k E = .ok (E', k') →
      P E' := by
  intro m
  induction m with
  | zero =>
    intro k E E' k' hP h
    unfold outerLoop at h
    cases hchk : is_regular_expander verdict E epsilon with
    | error e => rw [hchk] at h; cases h
    | ok b =>
      rw [hchk] at h
      cases b
      · cases h
      · cases h; exact hP
  | succ m ih =>
    intro k E E' k' hP h
    unfold outerLoop at h
    cases hchk : is_regular_expander verdict E epsilon with
    | error e => rw [hchk] at h; cases h
    | ok b =>
      rw [hchk] at h
      cases b
      · cases hm2 : maybe_regular_expander n d max_tries draws k with
        | error e => rw [hm2] at h; cases h
        | ok Ek =>
          obtain ⟨E1, k1⟩ := Ek
          rw [hm2] at h
          have h' : (if m = 0 then (.error .outerExhausted :
                Except NetworkXError (Finset (Fin n × Fin n) × ℕ))
              else outerLoop n d max_tries epsilon verdict draws m k1 E1) =
                .ok (E', k') := h
          by_cases hm0 : m = 0
          · rw [if_pos hm0] at h'; cases h'
          · rw [if_neg hm0] at h'
            exact ih k1 E1 E' k' (hmaybe k E1 k1 hm2) h'
      · cases h; exact hP

/-- Validation facts and the invariant for every successful
`random_regular_expander_graph` run with permutation draws. -/
lemma random_goodState {n d max_tries : ℕ} {epsilon : ℚ}
    {verdict : Finset (Fin n × Fin n) → Bool} {draws : ℕ → List (Fin n)}
    {k : ℕ} {E : Finset (Fin n × Fin n)} {k' : ℕ}
    (hdraws : ∀ j, IsPermDraw n (draws j))
    (h : random_regular_expander_graph n d epsilon max_tries verdict draws k =
      .ok (E, k')) :
    2 ≤ d ∧ d % 2 = 0 ∧ 3 ≤ n ∧ GoodState n (d / 2) E := by
  unfold random_regular_expander_graph at h
  cases hm : maybe_regular_expander n d max_tries draws k with
  | error e => rw [hm] at h; cases h
  | ok Ek =>
    obtain ⟨E0, k0⟩ := Ek
    rw [hm] at h
    obtain ⟨h2, h3, hn3, hG0⟩ := maybe_goodState hdraws hm
    refine ⟨h2, h3, hn3, ?_⟩
    exact outerLoop_preserves (GoodState n (d / 2))
      (fun k1 E1 k1' hm1 => (maybe_goodState hdraws hm1).2.2.2)
      max_tries k0 E0 E k' hG0 h

/-- C2: every edge set returned by the expander generator — whether by
`maybe_regular_expander` directly or through
`random_regular_expander_graph` — on a stream of genuine permutation draws
is simple (no self-loop, never both orientations of a pair) and every one
of the `n` nodes has exactly `d` distinct neighbours. -/
theorem c2_generated_expanders_simple_d_regular
    (n d max_tries : ℕ) (epsilon : ℚ)
    (verdict : Finset (Fin n × Fin n) → Bool) (draws : ℕ → List (Fin n))
    (k : ℕ) (E : Finset (Fin n × Fin n)) (k' : ℕ)
    (hdraws : ∀ j, IsPermDraw n (draws j)) :
    (maybe_regular_expander n d max_tries draws k = .ok (E, k') →
      (∀ v, (v, v) ∉ E) ∧ (∀ p ∈ E, p.swap ∉ E) ∧
        ∀ v, degreeOf E v = d) ∧
    (random_regular_expander_graph n d epsilon max_tries verdict draws k =
        .ok (E, k') →
      (∀ v, (v, v) ∉ E) ∧ (∀ p ∈ E, p.swap ∉ E) ∧
        ∀ v, degreeOf E v = d) := by
  constructor
  · intro h
    obtain ⟨h2, h3, hn3, hG⟩ := maybe_goodState hdraws h
    exact ⟨hG.2.1, hG.2.2.1, fun v => by rw [hG.2.2.2 v]; omega⟩
  · intro h
    obtain ⟨h2, h3, hn3, hG⟩ := random_goodState hdraws h
    exact ⟨hG.2.1, hG.2.2.1, fun v => by rw [hG.2.2.2 v]; omega⟩

/-- C2 (witness): the run on three nodes with degree 2 and first draw
`[0, 1, 2]` returns the triangle, which is loop-free, orientation-unique
and 2-regular. -/
theorem c2_witness :
    (∀ v : Fin 3, (v, v) ∉ ({(0, 1), (1, 2), (2, 0)} :
        Finset (Fin 3 × Fin 3))) ∧
    (∀ p ∈ ({(0, 1), (1, 2), (2, 0)} : Finset (Fin 3 × Fin 3)),
      p.swap ∉ ({(0, 1), (1, 2), (2, 0)} : Finset (Fin 3 × Fin 3))) ∧
    (∀ v : Fin 3,
      degreeOf ({(0, 1), (1, 2), (2, 0)} : Finset (Fin 3 × Fin 3)) v = 2) :=
  (c2_generated_expanders_simple_d_regular 3 2 2 0 (fun _ => true)
    (fun _ => [0, 1, 2]) 0 {(0, 1), (1, 2), (2, 0)} 1
    (fun j => show IsPermDraw 3 [0, 1, 2] from ⟨by decide, by decide⟩)).1
    (by decide)

/-- C8: whenever `lift_topology` succeeds on an `n`-node input with
configured degree `node_degree` (and permutation draws), the returned dict
has: an incidence matrix each of whose columns is incident to exactly two
nodes, `num_hyperedges` equal to the column count, which equals
`n * node_degree / 2`, and `x_0` the input features passed through
unchanged. -/
theorem c8_lift_topology_contract (F : Type) (node_degree n : ℕ)
    (verdict : Finset (Fin n × Fin n) → Bool) (data : DataIn n F)
    (draws : ℕ → List (Fin n)) (k : ℕ) (r : LiftOutput n F)
    (hdraws : ∀ j, IsPermDraw n (draws j))
    (h : lift_topology node_degree n verdict data draws k = .ok r) :
    (∀ p ∈ r.incidenceCols, (colSupport p).card = 2) ∧
    r.num_hyperedges = r.incidenceCols.card ∧
    r.num_hyperedges = n * node_degree / 2 ∧
    r.x_0 = data.x := by
  unfold lift_topology at h
  cases hrand : random_regular_expander_graph n node_degree 0 100 verdict
      draws k with
  | error e => rw [hrand] at h; cases h
  | ok Ek =>
    obtain ⟨E, k2⟩ := Ek
    rw [hrand] at h
    cases h
    obtain ⟨h2, h3, hn3, hG⟩ := random_goodState hdraws hrand
    refine ⟨?_, rfl, ?_, rfl⟩
    · intro p hp
      have hne : p.1 ≠ p.2 := by
        intro hpe
        apply hG.2.1 p.1
        have hpp : p = (p.1, p.1) := Prod.ext rfl hpe.symm
        rwa [← hpp]
      unfold colSupport
      exact Finset.card_pair hne
    · show E.card = n * node_degree / 2
      obtain ⟨t, rfl⟩ : ∃ t, node_degree = 2 * t :=
        ⟨node_degree / 2, by omega⟩
      have h1 : 2 * t / 2 = t := by omega
      rw [hG.1, h1, show n * (2 * t) = 2 * (t * n) from by ring,
        Nat.mul_div_cancel_left _ (by norm_num)]

/-- C8 (witness): the lift on three nodes with degree 2 returns the
triangle's incidence structure: three columns of two nodes each,
`num_hyperedges = 3 = 3 * 2 / 2`, features unchanged. -/
theorem c8_witness :
    (∀ p ∈ ({(0, 1), (1, 2), (2, 0)} : Finset (Fin 3 × Fin 3)),
        (colSupport p).card = 2) ∧
    (3 : ℕ) = ({(0, 1), (1, 2), (2, 0)} : Finset (Fin 3 × Fin 3)).card ∧
    (3 : ℕ) = 3 * 2 / 2 ∧
    () = () :=
  c8_lift_topology_contract Unit 2 3 (fun _ => true) ⟨()⟩
    (fun _ => [0, 1, 2]) 0 ⟨{(0, 1), (1, 2), (2, 0)}, 3, ()⟩
    (fun j => show IsPermDraw 3 [0, 1, 2] from ⟨by decide, by decide⟩)
    (by decide)
